import Mathlib

/-!
Verification development for the tags plugin (`src/tags/plugin.py`).

The plugin scans markdown documents, extracts their YAML front matter,
aggregates the documents by the tags declared there, and writes one
generated page per tag plus a global tag index.  This file gives a shallow
embedding of the plugin's logic and proves properties about it.

Documents are modelled as lists of lines (each line normally ends in a
newline character, as in Python file iteration).  Metadata dictionaries are
modelled by the structure `DocMeta` below.  Stable sorting (Python's
`sorted`) is modelled by an insertion sort proved stable in this file.
-/

/-- A metadata dictionary, as produced by the YAML parse of a front-matter
block and consumed by `get_aggregated_data`.  `title` is `none` when the
key is missing.  `tags` distinguishes a missing key (`none`), a key present
with a null value (`some none`) and a key holding a list
(`some (some l)`), matching `e.get("tags", [])` followed by the
`is not None` check in the source.  `year` is `none` when missing. -/
structure DocMeta where
  title : Option String
  tags : Option (Option (List String))
  year : Option Int
  filename : String
deriving DecidableEq

/-- Whitespace test used by the model of Python's `str.strip`. -/
def isWS (c : Char) : Bool :=
  c = ' ' || c = '\t' || c = '\n' || c = '\r'

/-- Drop leading whitespace characters. -/
def dropWS : List Char → List Char
  | [] => []
  | c :: cs => if isWS c then dropWS cs else c :: cs

/-- Model of Python's `str.strip`: remove leading and trailing whitespace. -/
def strip (s : String) : String :=
  ⟨(dropWS ((dropWS s.data).reverse)).reverse⟩

/-- `"".join` on a list of strings. -/
def strJoin (l : List String) : String :=
  l.foldl (fun a b => a ++ b) ""

/-- Model of `str.startswith`. -/
def strStartsWith (s pre : String) : Bool :=
  pre.data.isPrefixOf s.data

/-- Model of `str.endswith`. -/
def strEndsWith (s suf : String) : Bool :=
  suf.data.isSuffixOf s.data

/-- Split a character list at newline characters. -/
def splitLinesAux : List Char → List Char → List (List Char)
  | [], acc => [acc.reverse]
  | c :: cs, acc =>
    if c = '\n' then acc.reverse :: splitLinesAux cs []
    else splitLinesAux cs (c :: acc)

/-- Split a string into its lines (newline-separated pieces). -/
def splitLines (s : String) : List String :=
  (splitLinesAux s.data []).map (fun cs => (⟨cs⟩ : String))

/-- Split a character list at commas. -/
def splitCommaAux : List Char → List Char → List (List Char)
  | [], acc => [acc.reverse]
  | c :: cs, acc =>
    if c = ',' then acc.reverse :: splitCommaAux cs []
    else splitCommaAux cs (c :: acc)

/-- The inner loop of `extract_yaml` from `get_metadata` in the source:
scan the lines, counting front-matter marker lines (trimmed content
`---`); marker lines are never collected; once the count is `2` the scan
stops at the first non-marker line; lines seen while the count is `1` are
collected. -/
def extract_yaml : List String → Nat → List String
  | [], _ => []
  | line :: rest, c =>
    if strip line = "---" then extract_yaml rest (c + 1)
    else if c = 2 then []
    else if c = 1 then line :: extract_yaml rest c
    else extract_yaml rest c

/-- Number of front-matter marker lines in a document. -/
def markerCount (lines : List String) : Nat :=
  lines.countP (fun l => strip l == "---")

/-- `get_metadata` from the source: join the lines collected by
`extract_yaml`; when the joined text is non-empty, parse it and inject the
`filename` key (overwriting any parsed value); when the text is empty,
return `none` ("absent").  The YAML parser is a parameter (`yload`), since
the YAML library is external to this repository.  When the parse of a
non-empty text yields no content, the source calls `.update` on Python's
`None`, which raises `AttributeError`; this is modelled by `.error ()`. -/
def get_metadata (yload : String → Option DocMeta) (name : String)
    (lines : List String) : Except Unit (Option DocMeta) :=
  let metadata := strJoin (extract_yaml lines 0)
  if metadata ≠ "" then
    match yload metadata with
    | some meta => .ok (some { meta with filename := name })
    | none => .error ()
  else
    .ok none

/-- Parse the bracketed list syntax used in the examples:
`[a, b]` becomes the list of its stripped comma-separated items,
`[]` the empty list. -/
def parseListVal (v : String) : List String :=
  let inner : List Char := (v.data.drop 1).dropLast
  if inner.all isWS ∨ inner = [] then []
  else (splitCommaAux inner []).map (fun cs => strip ⟨cs⟩)

/-- One line of the modelled YAML parse: recognise `tags:` and `title:`
keys, leave anything else untouched. -/
def parseLineModel (m : DocMeta) (l : String) : DocMeta :=
  let s := strip l
  if strStartsWith s "tags:" then
    let v := strip ⟨s.data.drop 5⟩
    if strStartsWith v "[" then { m with tags := some (some (parseListVal v)) }
    else m
  else if strStartsWith s "title:" then
    { m with title := some (strip ⟨s.data.drop 6⟩) }
  else m

/-- Modelled from the spec: the external YAML front-matter parser (the
spec treats the front-matter format as an external data format and the
YAML library is not part of this repository).  This model covers the
subset of the format used in the concrete examples of this file: input
whose every line is blank or a `#` comment parses to no content (`none`,
exactly as the real parser yields no document for comment-only input), and
otherwise the recognised `tags:`/`title:` lines are folded into a
metadata record. -/
def yamlLoadModel (s : String) : Option DocMeta :=
  let ls := (splitLines s).filter
    (fun l => !(strip l == "") && !(strStartsWith (strip l) "#"))
  if ls.isEmpty then none
  else some (ls.foldl parseLineModel
    { title := none, tags := none, year := none, filename := "" })

/-- Insert `x` into `l` after every element `y` with `le y x`; the
insertion step of a stable insertion sort. -/
def insertLe {α : Type} (le : α → α → Bool) (x : α) : List α → List α
  | [] => [x]
  | y :: ys => if le y x then y :: insertLe le x ys else x :: y :: ys

/-- Stable sort by the Boolean relation `le`, processing the input left to
right; equal elements keep their input order.  This models Python's
`sorted`, which is specified to be stable. -/
def stableSortBy {α : Type} (le : α → α → Bool) (l : List α) : List α :=
  l.foldl (fun acc x => insertLe le x acc) []

/-- Lexicographic comparison of character lists by code point, the model
of Python's string comparison. -/
def lexLe : List Char → List Char → Bool
  | [], _ => true
  | _ :: _, [] => false
  | a :: as, b :: bs =>
    if a.toNat < b.toNat then true
    else if a.toNat = b.toNat then lexLe as bs
    else false

/-- Lexicographic string comparison by code point. -/
def strLe (a b : String) : Bool := lexLe a.data b.data

/-- The sort key of `__get_aggregated_data`:
`e.get("year", 5000) if e else 0`. -/
def sortKey : Option DocMeta → Int
  | none => 0
  | some m => m.year.getD 5000

/-- The `title` defaulting of `__get_aggregated_data`:
`if "title" not in e: e["title"] = "Untitled"`. -/
def fillTitle (m : DocMeta) : DocMeta :=
  if m.title = none then { m with title := some "Untitled" } else m

/-- The tag list a document effectively contributes:
`e.get("tags", [])` is the empty list when the key is missing, and a
document whose `tags` value is null contributes nothing because of the
`is not None` check. -/
def effTags (m : DocMeta) : List String :=
  match m.tags with
  | none => []
  | some none => []
  | some (some l) => l

/-- `tag_dict[tag].append(e)` on an insertion-ordered dictionary modelled
as an association list: append to the entry of `t` when present, otherwise
append a new `(t, [e])` entry at the end. -/
def insertTag (acc : List (String × List DocMeta)) (t : String) (m : DocMeta) :
    List (String × List DocMeta) :=
  match acc with
  | [] => [(t, [m])]
  | (t₀, l₀) :: rest =>
    if t₀ = t then (t₀, l₀ ++ [m]) :: rest else (t₀, l₀) :: insertTag rest t m

/-- The body of the grouping loop of `__get_aggregated_data`: skip absent
metadata, default the title, then append the (title-filled) document to
the group of each of its tags, skipping a null `tags` value. -/
def tagDictStep (acc : List (String × List DocMeta)) (e : Option DocMeta) :
    List (String × List DocMeta) :=
  match e with
  | none => acc
  | some m =>
    let m := fillTitle m
    match (match m.tags with | none => some [] | some v => v) with
    | none => acc
    | some tags => tags.foldl (fun a t => insertTag a t m) acc

/-- ASCII lowercase of one character, the model of `str.lower` on the
characters appearing in tag names. -/
def lowerChar (c : Char) : Char :=
  if 'A' ≤ c ∧ c ≤ 'Z' then Char.ofNat (c.toNat + 32) else c

/-- Model of `str.lower`. -/
def strLower (s : String) : String :=
  ⟨s.data.map lowerChar⟩

/-- The comparison of the first sort of `__get_aggregated_data`:
ascending `sortKey`. -/
def yearLe (a b : Option DocMeta) : Bool := decide (sortKey a ≤ sortKey b)

/-- The comparison of the final sort of `__get_aggregated_data`:
`key=lambda t: t[0].lower()`, case-insensitive lexicographic order on the
tag names. -/
def tagLe (p q : String × List DocMeta) : Bool :=
  strLe (strLower p.1) (strLower q.1)

/-- The first step of `__get_aggregated_data`:
`sorted(self.metadata, key=lambda e: e.get("year", 5000) if e else 0)`. -/
def sortMetadata (metadata : List (Option DocMeta)) : List (Option DocMeta) :=
  stableSortBy yearLe metadata

/-- `__get_aggregated_data` from the source: stable-sort the metadata by
`sortKey`, group the non-absent entries by tag in insertion order, and
return the groups stable-sorted by lowercased tag name. -/
def get_aggregated_data (metadata : List (Option DocMeta)) :
    List (String × List DocMeta) :=
  let sorted_meta := sortMetadata metadata
  let tag_dict := sorted_meta.foldl tagDictStep []
  stableSortBy tagLe tag_dict

/-- The ordered document group the aggregated data holds for tag `t`
(the concatenation of the page lists of the entries keyed `t`; entry keys
are unique, so this is the single group of `t`, or `[]` when `t` has no
group). -/
def groupOf (data : List (String × List DocMeta)) (t : String) : List DocMeta :=
  ((data.filter (fun p => p.1 == t)).map Prod.snd).flatten

/-- The contribution of one scanned metadata entry to the group of tag
`t`: nothing for absent metadata, otherwise one copy of the title-filled
document per occurrence of `t` in its tag list. -/
def contrib (t : String) (e : Option DocMeta) : List DocMeta :=
  match e with
  | none => []
  | some m => List.replicate ((effTags m).count t) (fillTitle m)

/-- The equivalence class test of `x₀` under a Boolean comparison:
`y` compares equal to `x₀` both ways. -/
def eqvB {α : Type} (le : α → α → Bool) (x₀ y : α) : Bool :=
  le x₀ y && le y x₀


/-- Python dictionary assignment `d[k] = v` on an insertion-ordered
dictionary modelled as an association list: overwrite in place when the
key is present, otherwise append at the end. -/
def dictInsert (d : List (String × String)) (k v : String) :
    List (String × String) :=
  match d with
  | [] => [(k, v)]
  | (k₀, v₀) :: rest =>
    if k₀ = k then (k, v) :: rest else (k₀, v₀) :: dictInsert rest k v

/-- The per-tag filename pattern `self.tag_pages_filename_template`
instantiated at a tag. -/
def tagPagesFilename (tag : String) : String := "tag." ++ tag ++ ".md"

/-- The state of the `generate_files` loop: the accumulated
`all_generated_files` list, the file writes performed so far as
`(path, text)` pairs in write order, and the dictionary `d` mapping each
tag to the file containing its pages. -/
structure GenAcc where
  files : List String
  writes : List (String × String)
  d : List (String × String)
deriving DecidableEq

/-- One iteration of the per-tag loop of `generate_files`: render the
tag's page with the built-in per-tag template, write it under the tag
pages filename inside the tags folder, record the filename. -/
def genStep (renderTagPage : String → List DocMeta → String) (folder : String)
    (acc : GenAcc) (p : String × List DocMeta) : GenAcc :=
  let filename := tagPagesFilename p.1
  let output_text := renderTagPage p.1 p.2
  { files := acc.files ++ [filename]
    writes := acc.writes ++ [(folder ++ "/" ++ filename, output_text)]
    d := dictInsert acc.d p.1 filename }

/-- `generate_files` from the source: aggregate, write one page per tag
(always with the built-in per-tag template `renderTagPage`), then write
the global index, rendered from `d.items()` with the built-in index
template when no custom template is configured and with the caller's
template otherwise.  Template rendering is external (the template engine
is out of scope), so the three renderers are parameters. -/
def generate_files (renderTagPage : String → List DocMeta → String)
    (renderIndexDefault : List (String × String) → String)
    (renderIndexCustom : String → List (String × String) → String)
    (tags_folder tags_filename : String) (tags_template : Option String)
    (metadata : List (Option DocMeta)) : GenAcc :=
  let data := get_aggregated_data metadata
  let a := data.foldl (genStep renderTagPage tags_folder) ⟨[], [], []⟩
  let output_text :=
    match tags_template with
    | none => renderIndexDefault a.d
    | some t => renderIndexCustom t a.d
  { files := a.files ++ [tags_filename]
    writes := a.writes ++ [(tags_folder ++ "/" ++ tags_filename, output_text)]
    d := a.d }

/-- The filename resolution of `on_config`:
`Path(self.config.get("tags_filename") or self.tags_filename)` with the
instance default `"tags.md"`; Python's `or` falls back on a missing or
empty configured value. -/
def resolve_tags_filename (cfg : Option String) : String :=
  match cfg with
  | none => "tags.md"
  | some s => if s = "" then "tags.md" else s

/-- The folder-name resolution of `on_config`:
`Path(self.config.get("tags_folder") or self.tags_folder)` with the
instance default `"aux"`. -/
def resolve_tags_folder_name (cfg : Option String) : String :=
  match cfg with
  | none => "aux"
  | some s => if s = "" then "aux" else s

/-- The full folder resolution of `on_config`: a relative tags folder is
resolved against `docs_dir/..`. -/
def resolve_tags_folder (cfg : Option String) (docs_dir : String) : String :=
  let f := resolve_tags_folder_name cfg
  if strStartsWith f "/" then f else docs_dir ++ "/../" ++ f

/-- The output side effects visible to this model: the files written so
far (path to contents, overwriting) and the directories created. -/
structure SiteFS where
  files : List (String × String)
  dirs : List String
deriving DecidableEq

/-- `self.__write_file`: open for writing (overwrite) and write. -/
def writeFile (fs : SiteFS) (p c : String) : SiteFS :=
  { fs with files := dictInsert fs.files p c }

/-- The `on_config` directory creation: `mkdir` only when the folder does
not exist yet. -/
def ensureDir (fs : SiteFS) (d : String) : SiteFS :=
  if d ∈ fs.dirs then fs else { fs with dirs := fs.dirs ++ [d] }

/-- Apply a list of file writes in order. -/
def applyWrites (fs : SiteFS) (ws : List (String × String)) : SiteFS :=
  ws.foldl (fun a w => writeFile a w.1 w.2) fs

/-- One full pass of the plugin on a fresh instance (`__init__` sets
`self.metadata = []`): resolve the configuration and create the tags
folder if missing (`on_config`), scan the `.md` files and extract their
metadata (`on_files`), then generate and write the per-tag pages and the
global index (`generate_files`).  Documents are `(src_path, lines)`
pairs.  The pass returns the write list (the generated files with their
contents) and the resulting output state; a metadata entry that makes the
extractor raise aborts the pass. -/
def full_pass (yload : String → Option DocMeta)
    (renderTagPage : String → List DocMeta → String)
    (renderIndexDefault : List (String × String) → String)
    (renderIndexCustom : String → List (String × String) → String)
    (cfgFolder cfgFilename tags_template : Option String)
    (docs_dir : String) (docs : List (String × List String)) (fs : SiteFS) :
    Except Unit (List (String × String) × SiteFS) :=
  let folder := resolve_tags_folder cfgFolder docs_dir
  let fs := ensureDir fs folder
  let filename := resolve_tags_filename cfgFilename
  match (docs.filter (fun d => strEndsWith d.1 ".md")).mapM
      (fun d => get_metadata yload d.1 d.2) with
  | .error e => .error e
  | .ok metadata =>
    let g := generate_files renderTagPage renderIndexDefault renderIndexCustom
      folder filename tags_template metadata
    .ok (g.writes, applyWrites fs g.writes)

/-- Modelled from the spec: the built-in per-tag page template
(`templates/tag-pages.md.template` is not under `src/`); it renders the
tag name and the ordered list of its pages.  Used only to instantiate
theorems at concrete inputs. -/
def renderTagPageModel (tag : String) (pages : List DocMeta) : String :=
  "# Tag: " ++ tag ++ "\n"
    ++ strJoin (pages.map (fun p =>
      "- " ++ (p.title.getD "Untitled") ++ " (" ++ p.filename ++ ")\n"))

/-- Modelled from the spec: the built-in global index template
(`templates/tags.md.template` is not under `src/`); it renders every tag
with a reference to its per-tag page. -/
def renderIndexModel (entries : List (String × String)) : String :=
  "# Tags\n"
    ++ strJoin (entries.map (fun e => "- " ++ e.1 ++ ": " ++ e.2 ++ "\n"))

/-- Modelled from the spec: a caller-supplied index template, rendered
over the same tag-to-filename entries.  Used only to instantiate theorems
at concrete inputs. -/
def renderCustomModel (tmpl : String) (entries : List (String × String)) : String :=
  tmpl ++ "\n" ++ strJoin (entries.map (fun e => e.1 ++ " -> " ++ e.2 ++ "\n"))

instance {ε α : Type} [DecidableEq ε] [DecidableEq α] : DecidableEq (Except ε α) :=
  fun a b =>
    match a, b with
    | .ok x, .ok y => decidable_of_iff (x = y) (by simp)
    | .error x, .error y => decidable_of_iff (x = y) (by simp)
    | .ok _, .error _ => isFalse (by simp)
    | .error _, .ok _ => isFalse (by simp)

/-- Concrete document: titled A, tagged x and y, year 2020. -/
def dA : DocMeta := ⟨some "A", some (some ["x", "y"]), some 2020, "a.md"⟩

/-- Concrete document: titled B, tagged x, year 2019. -/
def dB : DocMeta := ⟨some "B", some (some ["x"]), some 2019, "b.md"⟩

/-- Concrete document: titled C, no tags. -/
def dC : DocMeta := ⟨some "C", some (some []), none, "c.md"⟩

/-- Concrete document whose tag list names `x` twice. -/
def dDup : DocMeta := ⟨some "D", some (some ["x", "x"]), some 1, "d.md"⟩

/-- Concrete document tagged x with year 6000 (above the 5000 sentinel). -/
def dY1 : DocMeta := ⟨some "A", some (some ["x"]), some 6000, "a.md"⟩

/-- Concrete document tagged x with no year. -/
def dY2 : DocMeta := ⟨some "B", some (some ["x"]), none, "b.md"⟩

/-- Concrete document tagged x, year 1 (first of two equal-key documents). -/
def dO1 : DocMeta := ⟨some "A", some (some ["x"]), some 1, "a.md"⟩

/-- Concrete document tagged x, year 1 (second of two equal-key documents). -/
def dO2 : DocMeta := ⟨some "B", some (some ["x"]), some 1, "b.md"⟩

/-- A document whose front-matter block holds only a comment line. -/
def badDoc : List String := ["---\n", "# note\n", "---\n"]

/-- A document with a single front-matter marker line and content after it. -/
def oneMarkerDoc : List String := ["---\n", "tags: [x]\n"]

/-- A concrete documentation set for instantiating the full pass. -/
def docsW : List (String × List String) :=
  [("a.md", ["---\n", "title: A\n", "tags: [x, y]\n", "---\n", "body\n"]),
   ("b.md", ["---\n", "title: B\n", "tags: [x]\n", "---\n"]),
   ("c.txt", ["ignored\n"])]

/-- The result of the full pass on `docsW` from an empty output state. -/
def passW : Except Unit (List (String × String) × SiteFS) :=
  full_pass yamlLoadModel renderTagPageModel renderIndexModel renderCustomModel
    none none none "docs" docsW ⟨[], []⟩

/-- The write list produced by the pass on `docsW`. -/
def wsW : List (String × String) :=
  match passW with
  | .ok (w, _) => w
  | .error _ => []

/-- The output state produced by the pass on `docsW`. -/
def fs1W : SiteFS :=
  match passW with
  | .ok (_, f) => f
  | .error _ => ⟨[], []⟩

section StableSortLemmas

variable {α : Type} {le : α → α → Bool}

theorem perm_insertLe (x : α) (l : List α) : (insertLe le x l).Perm (x :: l) := by
  induction l with
  | nil => simp [insertLe]
  | cons y ys ih =>
    unfold insertLe
    by_cases h : le y x = true
    · simpa [h] using ((ih.cons y).trans (List.Perm.swap x y ys))
    · simp [h]

theorem mem_insertLe {z x : α} {l : List α} :
    z ∈ insertLe le x l ↔ z = x ∨ z ∈ l := by
  rw [(perm_insertLe x l).mem_iff]; simp

theorem le_refl_of_total (htot : ∀ a b, le a b || le b a) (a : α) :
    le a a = true := by
  have := htot a a; simpa using this

theorem pairwise_insertLe (htot : ∀ a b, le a b || le b a)
    (htrans : ∀ a b c, le a b = true → le b c = true → le a c = true)
    (x : α) {l : List α} (h : l.Pairwise (fun a b => le a b = true)) :
    (insertLe le x l).Pairwise (fun a b => le a b = true) := by
  induction l with
  | nil => simp [insertLe]
  | cons y ys ih =>
    rcases List.pairwise_cons.mp h with ⟨hy, hys⟩
    unfold insertLe
    by_cases hyx : le y x = true
    · simp only [hyx, if_true]
      refine List.pairwise_cons.mpr ⟨?_, ih hys⟩
      intro z hz
      rcases mem_insertLe.mp hz with rfl | hz
      · exact hyx
      · exact hy z hz
    · simp only [hyx, if_false]
      have hxy : le x y = true := by
        have := htot x y
        rcases Bool.or_eq_true_iff.mp this with h' | h'
        · exact h'
        · exact absurd h' hyx
      refine List.pairwise_cons.mpr ⟨?_, h⟩
      intro z hz
      rcases List.mem_cons.mp hz with rfl | hz
      · exact hxy
      · exact htrans x y z hxy (hy z hz)

theorem filter_insertLe (htot : ∀ a b, le a b || le b a)
    (htrans : ∀ a b c, le a b = true → le b c = true → le a c = true)
    (x₀ x : α) {l : List α} (h : l.Pairwise (fun a b => le a b = true)) :
    (insertLe le x l).filter (eqvB le x₀)
      = l.filter (eqvB le x₀) ++ if eqvB le x₀ x then [x] else [] := by
  induction l with
  | nil => cases hpx : eqvB le x₀ x <;> simp [insertLe, List.filter, hpx]
  | cons y ys ih =>
    rcases List.pairwise_cons.mp h with ⟨hy, hys⟩
    unfold insertLe
    by_cases hyx : le y x = true
    · simp only [hyx, if_true, List.filter_cons]
      rw [ih hys]
      by_cases hpy : eqvB le x₀ y = true
      · simp [hpy]
      · simp [hpy]
    · have key : eqvB le x₀ x = true → (y :: ys).filter (eqvB le x₀) = [] := by
        intro hpx
        rw [List.filter_eq_nil_iff]
        intro z hz hpz
        have hx₀x : le x₀ x = true := by
          have h' := hpx; simp only [eqvB, Bool.and_eq_true] at h'; exact h'.1
        have hzx₀ : le z x₀ = true := by
          have h' := hpz; simp only [eqvB, Bool.and_eq_true] at h'; exact h'.2
        have hyz : le y z = true := by
          rcases List.mem_cons.mp hz with heq | hz'
          · rw [heq]; exact le_refl_of_total htot y
          · exact hy z hz'
        exact hyx (htrans y z x hyz (htrans z x₀ x hzx₀ hx₀x))
      rw [if_neg hyx]
      by_cases hpx : eqvB le x₀ x = true
      · rw [List.filter_cons, if_pos hpx, key hpx, if_pos hpx]
        rfl
      · rw [List.filter_cons, if_neg hpx, if_neg hpx]
        simp

theorem perm_stableSortBy_aux (l acc : List α) :
    (l.foldl (fun a x => insertLe le x a) acc).Perm (acc ++ l) := by
  induction l generalizing acc with
  | nil => simp
  | cons x xs ih =>
    simp only [List.foldl_cons]
    refine (ih (insertLe le x acc)).trans ?_
    refine (((perm_insertLe x acc).append_right xs).trans ?_)
    exact List.perm_middle.symm

theorem perm_stableSortBy (l : List α) : (stableSortBy le l).Perm l := by
  simpa [stableSortBy] using perm_stableSortBy_aux l []

theorem pairwise_stableSortBy_aux (htot : ∀ a b, le a b || le b a)
    (htrans : ∀ a b c, le a b = true → le b c = true → le a c = true)
    (l : List α) :
    ∀ acc : List α, acc.Pairwise (fun a b => le a b = true) →
      (l.foldl (fun a x => insertLe le x a) acc).Pairwise
        (fun a b => le a b = true) := by
  induction l with
  | nil => intro acc h; simpa using h
  | cons x xs ih =>
    intro acc h
    simpa using ih (insertLe le x acc) (pairwise_insertLe htot htrans x h)

theorem pairwise_stableSortBy (htot : ∀ a b, le a b || le b a)
    (htrans : ∀ a b c, le a b = true → le b c = true → le a c = true)
    (l : List α) :
    (stableSortBy le l).Pairwise (fun a b => le a b = true) :=
  pairwise_stableSortBy_aux htot htrans l [] (List.Pairwise.nil)

theorem filter_stableSortBy_aux (htot : ∀ a b, le a b || le b a)
    (htrans : ∀ a b c, le a b = true → le b c = true → le a c = true)
    (x₀ : α) (l : List α) :
    ∀ acc : List α, acc.Pairwise (fun a b => le a b = true) →
      (l.foldl (fun a x => insertLe le x a) acc).filter (eqvB le x₀)
        = acc.filter (eqvB le x₀) ++ l.filter (eqvB le x₀) := by
  induction l with
  | nil => intro acc _; simp
  | cons x xs ih =>
    intro acc h
    simp only [List.foldl_cons]
    rw [ih (insertLe le x acc) (pairwise_insertLe htot htrans x h)]
    rw [filter_insertLe htot htrans x₀ x h]
    by_cases hpx : eqvB le x₀ x = true
    · simp [List.filter_cons, hpx]
    · simp [List.filter_cons, hpx]

/-- Stability of the stable sort: the elements comparing equal to any
fixed element appear in the sorted list exactly in their input order. -/
theorem filter_stableSortBy (htot : ∀ a b, le a b || le b a)
    (htrans : ∀ a b c, le a b = true → le b c = true → le a c = true)
    (x₀ : α) (l : List α) :
    (stableSortBy le l).filter (eqvB le x₀) = l.filter (eqvB le x₀) := by
  simpa [stableSortBy] using
    filter_stableSortBy_aux htot htrans x₀ l [] (List.Pairwise.nil)

end StableSortLemmas

theorem lexLe_total : ∀ as bs : List Char, lexLe as bs || lexLe bs as := by
  intro as
  induction as with
  | nil => intro bs; simp [lexLe]
  | cons a as ih =>
    intro bs
    cases bs with
    | nil => simp [lexLe]
    | cons b bs =>
      simp only [lexLe]
      by_cases h1 : a.toNat < b.toNat
      · simp [h1]
      · by_cases h2 : a.toNat = b.toNat
        · have h2' : ¬ b.toNat < a.toNat := by omega
          rw [if_neg h1, if_pos h2, if_neg h2', if_pos h2.symm]
          exact ih bs
        · have h3 : b.toNat < a.toNat := by omega
          simp [h1, h2, h3]

theorem lexLe_trans : ∀ as bs cs : List Char,
    lexLe as bs = true → lexLe bs cs = true → lexLe as cs = true := by
  intro as
  induction as with
  | nil => intro bs cs _ _; simp [lexLe]
  | cons a as ih =>
    intro bs cs h1 h2
    cases bs with
    | nil => simp [lexLe] at h1
    | cons b bs =>
      cases cs with
      | nil => simp [lexLe] at h2
      | cons c cs =>
        simp only [lexLe] at h1 h2 ⊢
        have H1 : a.toNat < b.toNat ∨ (a.toNat = b.toNat ∧ lexLe as bs = true) := by
          by_cases hab : a.toNat < b.toNat
          · exact Or.inl hab
          · by_cases heq : a.toNat = b.toNat
            · right; exact ⟨heq, by simpa [hab, heq] using h1⟩
            · simp [hab, heq] at h1
        have H2 : b.toNat < c.toNat ∨ (b.toNat = c.toNat ∧ lexLe bs cs = true) := by
          by_cases hbc : b.toNat < c.toNat
          · exact Or.inl hbc
          · by_cases heq : b.toNat = c.toNat
            · right; exact ⟨heq, by simpa [hbc, heq] using h2⟩
            · simp [hbc, heq] at h2
        rcases H1 with hab | ⟨hab, hab'⟩ <;> rcases H2 with hbc | ⟨hbc, hbc'⟩
        · have : a.toNat < c.toNat := by omega
          simp [this]
        · have : a.toNat < c.toNat := by omega
          simp [this]
        · have : a.toNat < c.toNat := by omega
          simp [this]
        · have hac : a.toNat = c.toNat := by omega
          simp [hac, Nat.lt_irrefl, ih bs cs hab' hbc']

theorem strLe_total (a b : String) : strLe a b || strLe b a :=
  lexLe_total a.data b.data

theorem strLe_trans {a b c : String} :
    strLe a b = true → strLe b c = true → strLe a c = true :=
  lexLe_trans a.data b.data c.data

theorem yearLe_total : ∀ a b : Option DocMeta, yearLe a b || yearLe b a := by
  intro a b
  simpa [yearLe, Bool.or_eq_true, decide_eq_true_iff] using
    Int.le_total (sortKey a) (sortKey b)

theorem yearLe_trans : ∀ a b c : Option DocMeta,
    yearLe a b = true → yearLe b c = true → yearLe a c = true := by
  intro a b c h1 h2
  simp only [yearLe, decide_eq_true_iff] at h1 h2 ⊢
  exact le_trans h1 h2

theorem tagLe_total : ∀ p q : String × List DocMeta, tagLe p q || tagLe q p := by
  intro p q
  exact strLe_total (strLower p.1) (strLower q.1)

theorem tagLe_trans : ∀ p q r : String × List DocMeta,
    tagLe p q = true → tagLe q r = true → tagLe p r = true := by
  intro p q r h1 h2
  exact strLe_trans h1 h2

theorem tags_fillTitle (m : DocMeta) : (fillTitle m).tags = m.tags := by
  unfold fillTitle; split <;> rfl

theorem effTags_fillTitle (m : DocMeta) : effTags (fillTitle m) = effTags m := by
  unfold effTags; rw [tags_fillTitle]

theorem groupOf_cons (p : String × List DocMeta) (rest : List (String × List DocMeta))
    (t : String) :
    groupOf (p :: rest) t = (if p.1 == t then p.2 else []) ++ groupOf rest t := by
  simp only [groupOf, List.filter_cons]
  by_cases h : (p.1 == t) = true
  · simp [h]
  · simp [h]

theorem groupOf_eq_nil {acc : List (String × List DocMeta)} {t : String}
    (h : t ∉ acc.map Prod.fst) : groupOf acc t = [] := by
  induction acc with
  | nil => rfl
  | cons p rest ih =>
    rw [groupOf_cons]
    simp only [List.map_cons, List.mem_cons] at h
    push_neg at h
    have h1 : (p.1 == t) = false := by
      simp only [beq_eq_false_iff_ne]
      exact fun he => h.1 he.symm
    simp [h1, ih h.2]

theorem keys_insertTag (acc : List (String × List DocMeta)) (t : String) (m : DocMeta) :
    (insertTag acc t m).map Prod.fst
      = if t ∈ acc.map Prod.fst then acc.map Prod.fst
        else acc.map Prod.fst ++ [t] := by
  induction acc with
  | nil => simp [insertTag]
  | cons p rest ih =>
    obtain ⟨t₀, l₀⟩ := p
    unfold insertTag
    by_cases h₀ : t₀ = t
    · simp [h₀]
    · simp only [h₀, if_false, List.map_cons, ih]
      by_cases hm : t ∈ rest.map Prod.fst
      · have : t ∈ t₀ :: rest.map Prod.fst := List.mem_cons_of_mem _ hm
        simp [hm, this]
      · have : t ∉ t₀ :: rest.map Prod.fst := by
          simp only [List.mem_cons]
          push_neg
          exact ⟨fun he => h₀ he.symm, hm⟩
        simp [hm, this]

theorem nodupKeys_insertTag {acc : List (String × List DocMeta)} {t : String}
    {m : DocMeta} (h : (acc.map Prod.fst).Nodup) :
    ((insertTag acc t m).map Prod.fst).Nodup := by
  rw [keys_insertTag]
  by_cases hm : t ∈ acc.map Prod.fst
  · simpa [hm] using h
  · simp only [hm, if_false]
    rw [List.nodup_append]
    exact ⟨h, List.nodup_singleton t, by
      intro a ha hb
      rw [List.mem_singleton] at hb
      exact hm (hb ▸ ha)⟩

theorem groupOf_insertTag {acc : List (String × List DocMeta)}
    (h : (acc.map Prod.fst).Nodup) (t t' : String) (m : DocMeta) :
    groupOf (insertTag acc t m) t'
      = if t' = t then groupOf acc t' ++ [m] else groupOf acc t' := by
  induction acc with
  | nil =>
    by_cases he : t' = t
    · simp [insertTag, groupOf_cons, he, groupOf]
    · have : (t == t') = false := by
        simp only [beq_eq_false_iff_ne]
        exact fun h' => he h'.symm
      simp [insertTag, groupOf_cons, he, this, groupOf]
  | cons p rest ih =>
    obtain ⟨t₀, l₀⟩ := p
    simp only [List.map_cons, List.nodup_cons] at h
    obtain ⟨hni, hrest⟩ := h
    unfold insertTag
    by_cases h₀ : t₀ = t
    · subst h₀
      simp only [if_true]
      rw [groupOf_cons, groupOf_cons]
      by_cases he : t' = t₀
      · subst he
        have hz : groupOf rest t' = [] := groupOf_eq_nil hni
        simp [hz]
      · have : (t₀ == t') = false := by
          simp only [beq_eq_false_iff_ne]
          exact fun h' => he h'.symm
        simp [this, he]
    · simp only [h₀, if_false]
      rw [groupOf_cons, groupOf_cons, ih hrest]
      by_cases he : t' = t
      · have : (t₀ == t') = false := by
          simp only [beq_eq_false_iff_ne]
          exact fun h' => h₀ (h' ▸ he)
        simp [he, this]
      · by_cases h0' : (t₀ == t') = true
        · simp [he, h0']
        · simp [he, h0']

theorem nodupKeys_foldl_insertTag (m : DocMeta) :
    ∀ (tags : List String) (acc : List (String × List DocMeta)),
      (acc.map Prod.fst).Nodup →
      (((tags.foldl (fun a tg => insertTag a tg m) acc)).map Prod.fst).Nodup := by
  intro tags
  induction tags with
  | nil => intro acc h; simpa using h
  | cons tg tags ih =>
    intro acc h
    simpa using ih (insertTag acc tg m) (nodupKeys_insertTag h)

theorem groupOf_foldl_insertTag (m : DocMeta) (t : String) :
    ∀ (tags : List String) (acc : List (String × List DocMeta)),
      (acc.map Prod.fst).Nodup →
      groupOf (tags.foldl (fun a tg => insertTag a tg m) acc) t
        = groupOf acc t ++ List.replicate (tags.count t) m := by
  intro tags
  induction tags with
  | nil => intro acc _; simp
  | cons tg tags ih =>
    intro acc h
    simp only [List.foldl_cons]
    rw [ih (insertTag acc tg m) (nodupKeys_insertTag h),
      groupOf_insertTag h tg t m, List.count_cons]
    by_cases he : t = tg
    · have hb : (tg == t) = true := by simp [he]
      simp only [he, if_true, hb]
      rw [List.append_assoc]
      congr 1
      simp [List.replicate_succ]
    · have hb : (tg == t) = false := by
        simp only [beq_eq_false_iff_ne]
        exact fun h' => he h'.symm
      simp [he, hb]

theorem tagDictStep_some (acc : List (String × List DocMeta)) (m : DocMeta) :
    tagDictStep acc (some m)
      = (effTags m).foldl (fun a tg => insertTag a tg (fillTitle m)) acc := by
  simp only [tagDictStep, tags_fillTitle]
  rcases htags : m.tags with _ | ⟨_ | l⟩ <;> simp [htags, effTags]

theorem nodupKeys_tagDictStep {acc : List (String × List DocMeta)}
    (h : (acc.map Prod.fst).Nodup) (e : Option DocMeta) :
    ((tagDictStep acc e).map Prod.fst).Nodup := by
  cases e with
  | none => exact h
  | some m =>
    rw [tagDictStep_some]
    exact nodupKeys_foldl_insertTag (fillTitle m) (effTags m) acc h

theorem nodupKeys_foldl_tagDictStep :
    ∀ (l : List (Option DocMeta)) (acc : List (String × List DocMeta)),
      (acc.map Prod.fst).Nodup →
      ((l.foldl tagDictStep acc).map Prod.fst).Nodup := by
  intro l
  induction l with
  | nil => intro acc h; simpa using h
  | cons e l ih =>
    intro acc h
    simpa using ih (tagDictStep acc e) (nodupKeys_tagDictStep h e)

theorem groupOf_foldl_tagDictStep (t : String) :
    ∀ (l : List (Option DocMeta)) (acc : List (String × List DocMeta)),
      (acc.map Prod.fst).Nodup →
      groupOf (l.foldl tagDictStep acc) t
        = groupOf acc t ++ (l.map (contrib t)).flatten := by
  intro l
  induction l with
  | nil => intro acc _; simp
  | cons e l ih =>
    intro acc h
    simp only [List.foldl_cons, List.map_cons, List.flatten_cons]
    rw [ih (tagDictStep acc e) (nodupKeys_tagDictStep h e)]
    cases e with
    | none => simp [tagDictStep, contrib]
    | some m =>
      rw [tagDictStep_some,
        groupOf_foldl_insertTag (fillTitle m) t (effTags m) acc h]
      simp [contrib, List.append_assoc]

theorem count_groupOf_perm {d d' : List (String × List DocMeta)}
    (h : d.Perm d') (t : String) (x : DocMeta) :
    (groupOf d t).count x = (groupOf d' t).count x := by
  unfold groupOf
  rw [List.count_flatten, List.count_flatten]
  exact (((h.filter (fun p => p.1 == t)).map Prod.snd).map (List.count x)).sum_eq

theorem count_flatten_map_perm {l l' : List (Option DocMeta)}
    (h : l.Perm l') (t : String) (x : DocMeta) :
    ((l.map (contrib t)).flatten).count x = ((l'.map (contrib t)).flatten).count x := by
  rw [List.count_flatten, List.count_flatten]
  exact ((h.map (contrib t)).map (List.count x)).sum_eq

theorem count_contrib_flatten (t : String) (m : DocMeta) :
    ∀ l : List (Option DocMeta),
      ((l.map (contrib t)).flatten).count (fillTitle m)
        = ((l.filterMap id).map fillTitle).count (fillTitle m)
            * ((effTags m).count t) := by
  intro l
  induction l with
  | nil => simp
  | cons e l ih =>
    cases e with
    | none => simpa [contrib] using ih
    | some m' =>
      simp only [List.map_cons, List.flatten_cons, List.count_append, contrib,
        List.filterMap_cons, id, List.count_cons, List.count_replicate]
      by_cases heq : fillTitle m' = fillTitle m
      · have htg : effTags m' = effTags m := by
          have h' := congrArg DocMeta.tags heq
          rw [tags_fillTitle, tags_fillTitle] at h'
          unfold effTags
          rw [h']
        have hb : (fillTitle m' == fillTitle m) = true := by simp [heq]
        simp only [hb, if_true, htg, ih]
        ring
      · have hb : (fillTitle m' == fillTitle m) = false := by
          simp [heq]
        simp [hb, ih]

/-- Master counting lemma for the aggregation: the number of occurrences
of a (title-filled) document in the aggregated group of tag `t` is the
number of occurrences of that document among the scanned non-absent
metadata times the number of occurrences of `t` in its tag list. -/
theorem count_groupOf_agg (l : List (Option DocMeta)) (m : DocMeta) (t : String) :
    (groupOf (get_aggregated_data l) t).count (fillTitle m)
      = ((l.filterMap id).map fillTitle).count (fillTitle m)
          * ((effTags m).count t) := by
  unfold get_aggregated_data
  rw [count_groupOf_perm (perm_stableSortBy _) t (fillTitle m)]
  rw [groupOf_foldl_tagDictStep t (sortMetadata l) [] (by simp)]
  have h0 : groupOf [] t = [] := rfl
  rw [h0, List.nil_append]
  simp only [sortMetadata]
  rw [count_flatten_map_perm (@perm_stableSortBy _ yearLe l) t (fillTitle m)]
  exact count_contrib_flatten t m l

/-- The tags of the aggregated data are pairwise distinct (the grouping
dictionary has unique keys). -/
theorem nodupKeys_agg (l : List (Option DocMeta)) :
    ((get_aggregated_data l).map Prod.fst).Nodup := by
  unfold get_aggregated_data
  have h := nodupKeys_foldl_tagDictStep (sortMetadata l) [] (by simp)
  exact ((perm_stableSortBy _).map Prod.fst).nodup_iff.mpr h

theorem sortMetadata_perm (l : List (Option DocMeta)) : (sortMetadata l).Perm l :=
  @perm_stableSortBy _ yearLe l

theorem sortMetadata_pairwise (l : List (Option DocMeta)) :
    (sortMetadata l).Pairwise (fun a b => sortKey a ≤ sortKey b) := by
  have h := pairwise_stableSortBy yearLe_total yearLe_trans l
  exact h.imp (fun hab => by simpa [yearLe, decide_eq_true_iff] using hab)

theorem sortMetadata_stable (l : List (Option DocMeta)) (k : Int) :
    (sortMetadata l).filter (fun e => sortKey e == k)
      = l.filter (fun e => sortKey e == k) := by
  have hx : sortKey (some ⟨none, none, some k, ""⟩) = k := rfl
  have hpt : ∀ y, eqvB yearLe (some ⟨none, none, some k, ""⟩) y = (sortKey y == k) := by
    intro y
    simp only [eqvB, yearLe, hx]
    by_cases h : sortKey y = k
    · simp [h]
    · have h1 : ¬ (k ≤ sortKey y) ∨ ¬ (sortKey y ≤ k) := by omega
      rcases h1 with h1 | h1 <;> simp [h1, h]
  have hs := filter_stableSortBy yearLe_total yearLe_trans
    (some ⟨none, none, some k, ""⟩) l
  calc (sortMetadata l).filter (fun e => sortKey e == k)
      = (sortMetadata l).filter (eqvB yearLe (some ⟨none, none, some k, ""⟩)) :=
        (List.filter_congr (fun y _ => (hpt y).symm))
    _ = l.filter (eqvB yearLe (some ⟨none, none, some k, ""⟩)) := hs
    _ = l.filter (fun e => sortKey e == k) :=
        (List.filter_congr (fun y _ => hpt y))

theorem extract_yaml_skip (rest : List String) :
    ∀ pre : List String, (∀ l ∈ pre, strip l ≠ "---") →
      extract_yaml (pre ++ rest) 0 = extract_yaml rest 0 := by
  intro pre
  induction pre with
  | nil => intro _; rfl
  | cons p pre ih =>
    intro h
    have hp : strip p ≠ "---" := h p (List.mem_cons_self p pre)
    simp only [List.cons_append, extract_yaml, hp, if_false]
    exact ih (fun l hl => h l (List.mem_cons_of_mem p hl))

theorem extract_yaml_collect (rest : List String) :
    ∀ mid : List String, (∀ l ∈ mid, strip l ≠ "---") →
      extract_yaml (mid ++ rest) 1 = mid ++ extract_yaml rest 1 := by
  intro mid
  induction mid with
  | nil => intro _; rfl
  | cons p mid ih =>
    intro h
    have hp : strip p ≠ "---" := h p (List.mem_cons_self p mid)
    have h12 : ¬ (1 : Nat) = 2 := by omega
    have step : extract_yaml ((p :: mid) ++ rest) 1
        = p :: extract_yaml (mid ++ rest) 1 := by
      show extract_yaml (p :: (mid ++ rest)) 1 = _
      simp only [extract_yaml, hp, h12, if_false, if_true]
    rw [step, ih (fun l hl => h l (List.mem_cons_of_mem p hl))]
    rfl

theorem extract_yaml_done :
    ∀ (post : List String) (c : Nat), 2 ≤ c → extract_yaml post c = [] := by
  intro post
  induction post with
  | nil => intro c _; rfl
  | cons p post ih =>
    intro c hc
    by_cases hp : strip p = "---"
    · simp only [extract_yaml, hp, if_true]
      exact ih (c + 1) (by omega)
    · by_cases h2 : c = 2
      · simp [extract_yaml, hp, h2]
      · have h1 : c ≠ 1 := by omega
        simp only [extract_yaml, hp, if_false, h2, h1]
        exact ih c hc

theorem dictInsert_fresh (d : List (String × String)) (k v : String)
    (h : k ∉ d.map Prod.fst) : dictInsert d k v = d ++ [(k, v)] := by
  induction d with
  | nil => rfl
  | cons p rest ih =>
    simp only [List.map_cons, List.mem_cons] at h
    push_neg at h
    simp only [dictInsert]
    rw [if_neg (fun he => h.1 he.symm)]
    rw [ih h.2]
    rfl

theorem genFold_spec (rt : String → List DocMeta → String) (folder : String) :
    ∀ (data : List (String × List DocMeta)) (acc : GenAcc),
      (∀ p ∈ data, p.1 ∉ acc.d.map Prod.fst) → (data.map Prod.fst).Nodup →
      data.foldl (genStep rt folder) acc
        = ⟨acc.files ++ data.map (fun p => tagPagesFilename p.1),
           acc.writes ++ data.map
             (fun p => (folder ++ "/" ++ tagPagesFilename p.1, rt p.1 p.2)),
           acc.d ++ data.map (fun p => (p.1, tagPagesFilename p.1))⟩ := by
  intro data
  induction data with
  | nil => intro acc _ _; simp
  | cons p data ih =>
    intro acc hfresh hnodup
    simp only [List.foldl_cons]
    have hp : p.1 ∉ acc.d.map Prod.fst := hfresh p (List.mem_cons_self p data)
    have hstep : genStep rt folder acc p
        = ⟨acc.files ++ [tagPagesFilename p.1],
           acc.writes ++ [(folder ++ "/" ++ tagPagesFilename p.1, rt p.1 p.2)],
           acc.d ++ [(p.1, tagPagesFilename p.1)]⟩ := by
      simp only [genStep]
      rw [dictInsert_fresh acc.d p.1 (tagPagesFilename p.1) hp]
    rw [hstep]
    simp only [List.map_cons, List.nodup_cons] at hnodup
    obtain ⟨hpn, hnodup⟩ := hnodup
    rw [ih _ ?_ hnodup]
    · simp [List.append_assoc]
    · intro q hq
      have h1 : q.1 ∉ acc.d.map Prod.fst := hfresh q (List.mem_cons_of_mem p hq)
      have h2 : q.1 ≠ p.1 := by
        intro he
        exact hpn (he ▸ (List.mem_map_of_mem Prod.fst hq))
      simp only [List.map_append, List.mem_append, List.map_cons, List.map_nil,
        List.mem_singleton, not_or]
      exact ⟨h1, h2⟩

/-- Structural description of `generate_files`: the per-tag loop writes
one file per aggregated tag in order, the dictionary handed to the index
template maps each tag to its per-tag filename, and the global index is
written last under the configured filename, rendered with the default
template exactly when no custom template is configured. -/
theorem generate_files_spec (rt : String → List DocMeta → String)
    (rid : List (String × String) → String)
    (ric : String → List (String × String) → String)
    (folder filename : String) (tmpl : Option String)
    (metadata : List (Option DocMeta)) :
    generate_files rt rid ric folder filename tmpl metadata
      = ⟨(get_aggregated_data metadata).map (fun p => tagPagesFilename p.1)
            ++ [filename],
         (get_aggregated_data metadata).map
             (fun p => (folder ++ "/" ++ tagPagesFilename p.1, rt p.1 p.2))
           ++ [(folder ++ "/" ++ filename,
                match tmpl with
                | none => rid ((get_aggregated_data metadata).map
                    (fun p => (p.1, tagPagesFilename p.1)))
                | some tp => ric tp ((get_aggregated_data metadata).map
                    (fun p => (p.1, tagPagesFilename p.1))))],
         (get_aggregated_data metadata).map (fun p => (p.1, tagPagesFilename p.1))⟩ := by
  unfold generate_files
  dsimp only
  rw [genFold_spec rt folder (get_aggregated_data metadata) ⟨[], [], []⟩
    (by intro q _; simp) (nodupKeys_agg metadata)]
  simp

theorem tagPagesFilename_inj {a b : String} :
    tagPagesFilename a = tagPagesFilename b → a = b := by
  intro h
  unfold tagPagesFilename at h
  have hd := congrArg String.data h
  simp only [String.data_append] at hd
  have h1 := List.append_cancel_right hd
  have h2 := List.append_cancel_left h1
  cases a; cases b
  exact congrArg String.mk h2

theorem dirs_applyWrites (fs : SiteFS) (ws : List (String × String)) :
    (applyWrites fs ws).dirs = fs.dirs := by
  induction ws generalizing fs with
  | nil => rfl
  | cons w ws ih =>
    simp only [applyWrites, List.foldl_cons]
    exact ih { fs with files := dictInsert fs.files w.1 w.2 }

theorem mem_dirs_ensureDir (fs : SiteFS) (d : String) : d ∈ (ensureDir fs d).dirs := by
  unfold ensureDir
  by_cases h : d ∈ fs.dirs
  · simp [h]
  · simp [h]

theorem ensureDir_mem (fs : SiteFS) (d : String) (h : d ∈ fs.dirs) :
    ensureDir fs d = fs := by
  simp [ensureDir, h]



/-- Claim C1 (amended): for every scanned document and tag `t`, the
(title-filled) document appears in the aggregated group of `t` once per
occurrence of the document among the non-absent metadata and per
occurrence of `t` in the document's tag list — in particular exactly once
when the document is scanned once and lists `t` once, but twice when its
tag list names `t` twice. -/
theorem claim_C1 (l : List (Option DocMeta)) (m : DocMeta) (t : String) :
    (groupOf (get_aggregated_data l) t).count (fillTitle m)
      = ((l.filterMap id).map fillTitle).count (fillTitle m)
          * ((effTags m).count t) :=
  count_groupOf_agg l m t

/-- Claim C1 counterexample: a document whose `tags` sequence contains
the tag `x` twice is placed twice, not exactly once, in the group for
`x`. -/
theorem claim_C1_counterexample :
    "x" ∈ effTags dDup
    ∧ (groupOf (get_aggregated_data [some dDup]) "x").count (fillTitle dDup) = 2
    ∧ (groupOf (get_aggregated_data [some dDup]) "x").count (fillTitle dDup) ≠ 1 :=
  ⟨by decide, by decide, by decide⟩

/-- Claim C2 (amended): the first step of the aggregation stably sorts
the metadata ascending by the key that is `0` for absent metadata and
otherwise the document's `year` defaulted to the sentinel `5000`: the
result is a permutation of the input, its keys are non-decreasing, and
entries with equal keys keep their input order.  (Documents lacking
`year` therefore sort after every document with `year < 5000` but not
after documents with `year > 5000`.) -/
theorem claim_C2 (l : List (Option DocMeta)) :
    (sortMetadata l).Perm l
    ∧ (sortMetadata l).Pairwise (fun a b => sortKey a ≤ sortKey b)
    ∧ (∀ k : Int, (sortMetadata l).filter (fun e => sortKey e == k)
        = l.filter (fun e => sortKey e == k))
    ∧ sortKey none = 0
    ∧ (∀ m : DocMeta, sortKey (some m) = m.year.getD 5000) :=
  ⟨sortMetadata_perm l, sortMetadata_pairwise l, sortMetadata_stable l, rfl,
   fun _ => rfl⟩

/-- Claim C2 counterexample: within the group of tag `x`, the document
with no `year` (key 5000) sorts before the document with `year = 6000`,
so a missing `year` does not sort after every document that has a
`year`. -/
theorem claim_C2_counterexample :
    dY2.year = none
    ∧ dY1.year = some 6000
    ∧ groupOf (get_aggregated_data [some dY1, some dY2]) "x" = [dY2, dY1] :=
  ⟨rfl, rfl, by decide⟩

/-- Claim C3 (amended): the aggregated sequence of (tag, documents)
pairs is ordered case-insensitively lexicographically by tag name (the
lowercased tag names are non-decreasing under code-point order). -/
theorem claim_C3 (l : List (Option DocMeta)) :
    (get_aggregated_data l).Pairwise (fun p q => tagLe p q = true) := by
  unfold get_aggregated_data
  exact pairwise_stableSortBy tagLe_total tagLe_trans _

/-- Claim C3 counterexample: two runs presenting the same documents in
different orders produce different aggregated sequences (the two
documents share tag `x` and an equal sort key, so the stable sort keeps
their input order). -/
theorem claim_C3_counterexample :
    ([some dO1, some dO2] : List (Option DocMeta)).Perm [some dO2, some dO1]
    ∧ get_aggregated_data [some dO1, some dO2]
        ≠ get_aggregated_data [some dO2, some dO1] :=
  ⟨by decide, by decide⟩

/-- Claim C4 (code bug): on a readable document whose collected
metadata-block text is non-empty but parses to no content (here a
comment-only front-matter block), `get_metadata` does not return
"absent": the source calls `.update` on the parser's `None` result and
raises `AttributeError` (modelled as `.error ()`). -/
theorem claim_C4 :
    strJoin (extract_yaml badDoc 0) = "# note\n"
    ∧ strJoin (extract_yaml badDoc 0) ≠ ""
    ∧ yamlLoadModel (strJoin (extract_yaml badDoc 0)) = none
    ∧ get_metadata yamlLoadModel "a.md" badDoc = .error () :=
  ⟨by decide, by decide, by decide, by decide⟩

/-- Claim C5 (amended): the line scan collects exactly the lines strictly
between the first and second marker occurrences and collects nothing
after the second marker; with zero marker lines nothing is collected and
the extractor returns absent; but with exactly one marker line every
subsequent line is collected as the block, so such a document does not in
general yield "no metadata block". -/
theorem claim_C5 (pre mid post : List String) (m1 m2 : String)
    (yload : String → Option DocMeta) (name : String)
    (hpre : ∀ l ∈ pre, strip l ≠ "---") (hmid : ∀ l ∈ mid, strip l ≠ "---")
    (h1 : strip m1 = "---") (h2 : strip m2 = "---") :
    extract_yaml (pre ++ m1 :: (mid ++ m2 :: post)) 0 = mid
    ∧ extract_yaml (pre ++ m1 :: mid) 0 = mid
    ∧ extract_yaml pre 0 = []
    ∧ get_metadata yload name pre = .ok none := by
  have e2 : ∀ rest : List String,
      extract_yaml (m1 :: rest) 0 = extract_yaml rest 1 := by
    intro rest; simp [extract_yaml, h1]
  have e4 : extract_yaml (m2 :: post) 1 = extract_yaml post 2 := by
    simp [extract_yaml, h2]
  have e5 : extract_yaml post 2 = [] := extract_yaml_done post 2 (le_refl 2)
  have c3 : extract_yaml pre 0 = [] := by
    have g1 := extract_yaml_skip [] pre hpre
    rwa [List.append_nil] at g1
  refine ⟨?_, ?_, c3, ?_⟩
  · rw [extract_yaml_skip _ pre hpre, e2, extract_yaml_collect _ mid hmid, e4,
      e5, List.append_nil]
  · have f3 := extract_yaml_collect [] mid hmid
    rw [List.append_nil] at f3
    rw [extract_yaml_skip _ pre hpre, e2, f3]
    simp [extract_yaml]
  · simp [get_metadata, c3, strJoin]

/-- Claim C5 witness: a concrete document with leading text, a
front-matter block holding one line, and a body; the block line is
collected between the markers, a one-marker variant collects the tail,
and the marker-free prefix alone extracts to nothing and is absent. -/
theorem claim_C5_witness :
    extract_yaml (["intro\n"] ++ "---\n" :: (["tags: [x]\n"] ++ "---\n" :: ["body\n"])) 0
        = ["tags: [x]\n"]
    ∧ extract_yaml (["intro\n"] ++ "---\n" :: ["tags: [x]\n"]) 0 = ["tags: [x]\n"]
    ∧ extract_yaml ["intro\n"] 0 = []
    ∧ get_metadata yamlLoadModel "a.md" ["intro\n"] = .ok none :=
  claim_C5 ["intro\n"] ["tags: [x]\n"] ["body\n"] "---\n" "---\n" yamlLoadModel
    "a.md" (by decide) (by decide) (by decide) (by decide)

/-- Claim C5 counterexample: a document with exactly one marker line
(fewer than two) whose extractor result is not absent: everything after
the single marker is collected and parsed into metadata. -/
theorem claim_C5_counterexample :
    markerCount oneMarkerDoc = 1
    ∧ markerCount oneMarkerDoc < 2
    ∧ get_metadata yamlLoadModel "a.md" oneMarkerDoc ≠ .ok none
    ∧ get_metadata yamlLoadModel "a.md" oneMarkerDoc
        = .ok (some ⟨none, some (some ["x"]), none, "a.md"⟩) :=
  ⟨by decide, by decide, by decide, by decide⟩

/-- Claim C6: re-running the full pass (scan, extract, aggregate, render,
write) with unchanged input documents on the output state left by a
first successful run succeeds again — the already-existing, non-empty
output directory is not re-created — and produces exactly the same write
list, so the generated files are byte-identical to those of the first
run. -/
theorem claim_C6 (yload : String → Option DocMeta)
    (rt : String → List DocMeta → String)
    (rid : List (String × String) → String)
    (ric : String → List (String × String) → String)
    (cfgFolder cfgFilename tmpl : Option String) (docs_dir : String)
    (docs : List (String × List String)) (fs fs1 : SiteFS)
    (ws : List (String × String))
    (h : full_pass yload rt rid ric cfgFolder cfgFilename tmpl docs_dir docs fs
          = .ok (ws, fs1)) :
    full_pass yload rt rid ric cfgFolder cfgFilename tmpl docs_dir docs fs1
      = .ok (ws, applyWrites fs1 ws) := by
  unfold full_pass at h ⊢
  dsimp only at h ⊢
  cases hm : (docs.filter (fun d => strEndsWith d.1 ".md")).mapM
      (fun d => get_metadata yload d.1 d.2) with
  | error e => rw [hm] at h; exact absurd h (by simp)
  | ok metadata =>
    rw [hm] at h
    simp only [Except.ok.injEq, Prod.mk.injEq] at h
    obtain ⟨hw, hf⟩ := h
    have hdir : resolve_tags_folder cfgFolder docs_dir ∈ fs1.dirs := by
      rw [← hf, dirs_applyWrites]
      exact mem_dirs_ensureDir fs (resolve_tags_folder cfgFolder docs_dir)
    rw [ensureDir_mem fs1 _ hdir]
    dsimp only
    rw [hw]

/-- Claim C6 witness: the concrete pass on `docsW` succeeds from an empty
output state, and running it again on the resulting state yields the
identical write list. -/
theorem claim_C6_witness :
    full_pass yamlLoadModel renderTagPageModel renderIndexModel renderCustomModel
        none none none "docs" docsW ⟨[], []⟩ = .ok (wsW, fs1W)
    ∧ full_pass yamlLoadModel renderTagPageModel renderIndexModel renderCustomModel
        none none none "docs" docsW fs1W = .ok (wsW, applyWrites fs1W wsW) :=
  ⟨by decide,
   claim_C6 yamlLoadModel renderTagPageModel renderIndexModel renderCustomModel
     none none none "docs" docsW ⟨[], []⟩ fs1W wsW (by decide)⟩

/-- Claim C7: in every pass, the aggregated tags are pairwise distinct
and each gets exactly one per-tag generated file (the per-tag filenames
are pairwise distinct as well), and the dictionary handed to the global
index template maps exactly the aggregated tags, in order, to exactly
the per-tag filenames written in the same pass — no dangling or missing
links. -/
theorem claim_C7 (rt : String → List DocMeta → String)
    (rid : List (String × String) → String)
    (ric : String → List (String × String) → String)
    (folder filename : String) (tmpl : Option String)
    (metadata : List (Option DocMeta)) :
    ((get_aggregated_data metadata).map Prod.fst).Nodup
    ∧ (generate_files rt rid ric folder filename tmpl metadata).d
        = (get_aggregated_data metadata).map (fun p => (p.1, tagPagesFilename p.1))
    ∧ (generate_files rt rid ric folder filename tmpl metadata).files
        = (get_aggregated_data metadata).map (fun p => tagPagesFilename p.1)
            ++ [filename]
    ∧ ((get_aggregated_data metadata).map (fun p => tagPagesFilename p.1)).Nodup := by
  refine ⟨nodupKeys_agg metadata, ?_, ?_, ?_⟩
  · rw [generate_files_spec]
  · rw [generate_files_spec]
  · have h := nodupKeys_agg metadata
    have hinj : Function.Injective tagPagesFilename := fun a b => tagPagesFilename_inj
    have h2 := h.map hinj
    rw [List.map_map] at h2
    exact h2

/-- Claim C8: the caller-supplied template affects only the global index
page: the per-tag writes are identical under any two template
configurations and are always rendered with the built-in per-tag
template, while the final (index) write uses the default index template
exactly when no custom template is configured and the caller's template
otherwise. -/
theorem claim_C8 (rt : String → List DocMeta → String)
    (rid : List (String × String) → String)
    (ric : String → List (String × String) → String)
    (folder filename : String) (metadata : List (Option DocMeta))
    (tmpl tmpl' : Option String) :
    (generate_files rt rid ric folder filename tmpl metadata).writes.dropLast
      = (generate_files rt rid ric folder filename tmpl' metadata).writes.dropLast
    ∧ (generate_files rt rid ric folder filename tmpl metadata).writes.dropLast
      = (get_aggregated_data metadata).map
          (fun p => (folder ++ "/" ++ tagPagesFilename p.1, rt p.1 p.2))
    ∧ (generate_files rt rid ric folder filename tmpl metadata).writes.getLast?
      = some (folder ++ "/" ++ filename,
          match tmpl with
          | none => rid ((get_aggregated_data metadata).map
              (fun p => (p.1, tagPagesFilename p.1)))
          | some tp => ric tp ((get_aggregated_data metadata).map
              (fun p => (p.1, tagPagesFilename p.1)))) := by
  rw [generate_files_spec, generate_files_spec]
  refine ⟨?_, ?_, ?_⟩
  · simp [List.dropLast_concat]
  · simp [List.dropLast_concat]
  · simp [List.getLast?_concat]

/-- Claim C9: the global tag index is written (and registered) under the
name resolved from the `tags_filename` option — the configured value when
one is set, `tags.md` when the option is unset — as the last write of the
pass, inside the tags folder. -/
theorem claim_C9 (s : String) (hs : s ≠ "")
    (rt : String → List DocMeta → String)
    (rid : List (String × String) → String)
    (ric : String → List (String × String) → String)
    (folder : String) (tmpl : Option String)
    (metadata : List (Option DocMeta)) :
    resolve_tags_filename (some s) = s
    ∧ resolve_tags_filename none = "tags.md"
    ∧ ((generate_files rt rid ric folder (resolve_tags_filename (some s)) tmpl
          metadata).writes.map Prod.fst).getLast? = some (folder ++ "/" ++ s)
    ∧ (generate_files rt rid ric folder (resolve_tags_filename (some s)) tmpl
          metadata).files.getLast? = some s
    ∧ ((generate_files rt rid ric folder (resolve_tags_filename none) tmpl
          metadata).writes.map Prod.fst).getLast?
        = some (folder ++ "/" ++ "tags.md") := by
  have h1 : resolve_tags_filename (some s) = s := by
    simp [resolve_tags_filename, hs]
  refine ⟨h1, rfl, ?_, ?_, ?_⟩
  · rw [h1, generate_files_spec]
    simp [List.getLast?_concat]
  · rw [h1, generate_files_spec]
    simp [List.getLast?_concat]
  · rw [generate_files_spec]
    simp [List.getLast?_concat, resolve_tags_filename]

/-- Claim C9 witness: with `tags_filename` set to `custom.md` the index
is the last file written, under `aux/custom.md`, and with the option
unset it is written under `aux/tags.md`. -/
theorem claim_C9_witness :
    resolve_tags_filename (some "custom.md") = "custom.md"
    ∧ resolve_tags_filename none = "tags.md"
    ∧ ((generate_files renderTagPageModel renderIndexModel renderCustomModel "aux"
          (resolve_tags_filename (some "custom.md")) none [some dA]).writes.map
            Prod.fst).getLast? = some ("aux" ++ "/" ++ "custom.md")
    ∧ (generate_files renderTagPageModel renderIndexModel renderCustomModel "aux"
          (resolve_tags_filename (some "custom.md")) none [some dA]).files.getLast?
        = some "custom.md"
    ∧ ((generate_files renderTagPageModel renderIndexModel renderCustomModel "aux"
          (resolve_tags_filename none) none [some dA]).writes.map
            Prod.fst).getLast? = some ("aux" ++ "/" ++ "tags.md") :=
  claim_C9 "custom.md" (by decide) renderTagPageModel renderIndexModel
    renderCustomModel "aux" none [some dA]

/-- Claim C10: configuring `tags_filename` or `tags_folder` as the empty
string makes the resolution fall back to the instance defaults `tags.md`
and `aux` (Python's `or` treats the empty string as falsy), exactly as
when the option is unset. -/
theorem claim_C10 :
    resolve_tags_filename (some "") = "tags.md"
    ∧ resolve_tags_folder_name (some "") = "aux"
    ∧ resolve_tags_filename (some "") = resolve_tags_filename none
    ∧ resolve_tags_folder_name (some "") = resolve_tags_folder_name none
    ∧ (∀ d : String, resolve_tags_folder (some "") d = resolve_tags_folder none d) :=
  ⟨rfl, rfl, rfl, rfl, fun _ => rfl⟩
